import Mathlib

/-!
Shallow embedding of the `yad_semver` crate (`src/lib.rs`).

Strings are modelled as `List Char` (all inputs of interest are ASCII, where
`Char` order and Rust byte order agree); Rust `u128` is modelled as `Nat`
together with the explicit bound `2 ^ 128` at the points where the source
parses into `u128` (overflow there is a parse failure in the source).

The source's parser is the anchored regex from the SemVer 2.0 standard:

  ^(0|[1-9]d*).(0|[1-9]d*).(0|[1-9]d*)
   (?:-((0|[1-9]d*|d*[a-zA-Z-][0-9a-zA-Z-]*)(.(0|[1-9]d*|d*[a-zA-Z-][0-9a-zA-Z-]*))*))?
   (?:+([0-9a-zA-Z-]+(.[0-9a-zA-Z-]+)*))?$

(`d` = decimal digit; the dots and the plus inside the pattern are escaped in
the source). Because the regex is anchored and its captures partition the
input deterministically — each numeric field is a maximal digit run followed
by a forced separator, the pre-release part cannot contain a plus sign, and
the build part starts at the first plus sign — it recognises exactly the
language of the deterministic recursive parser `from_str` below, with the
same captures.
-/

namespace YadSemver

/-- The `SemVer` struct of the crate (`lib.rs`).  `deriving DecidableEq`
models the derived `PartialEq`/`Eq`: structural equality on all five
fields. -/
structure SemVer where
  major : Nat
  minor : Nat
  patch : Nat
  pre_release : Option (List Char)
  build_meta : Option (List Char)
deriving DecidableEq, Repr

/-- `u128::MAX + 1`: a decimal string parses as `u128` exactly when its value
is below this bound. -/
def u128Bound : Nat := 2 ^ 128

/-- The identifier alphabet `[0-9a-zA-Z-]` shared by pre-release and
build-metadata identifiers in the regex. -/
def idChar (c : Char) : Bool := c.isAlphanum || c = '-'

/-- Splitting a string on the dot character, as Rust's `split(".")` does:
the empty string yields one empty piece, and consecutive dots yield empty
pieces. -/
def splitDot : List Char → List (List Char)
  | [] => [[]]
  | c :: rest =>
    if c = '.' then [] :: splitDot rest
    else
      match splitDot rest with
      | [] => [[c]]
      | g :: gs => (c :: g) :: gs

/-- The numeric value of a decimal digit string (the mathematical content of
Rust's `str::parse` into an unsigned integer, before the overflow check). -/
def parseNat (ds : List Char) : Nat :=
  ds.foldl (fun a c => a * 10 + (c.toNat - 48)) 0

/-- The shape `0|[1-9]d*` of the regex's numeric captures, assuming the
string is already all digits: nonempty, and a leading `0` only for the
string `0` itself. -/
def numericShape : List Char → Bool
  | [] => false
  | c :: rest => !(c = '0' && !rest.isEmpty)

/-- One pre-release identifier, the regex alternative
`0|[1-9]d*|d*[a-zA-Z-][0-9a-zA-Z-]*`: nonempty over the identifier
alphabet, and when it consists only of digits it has no leading zero. -/
def preIdOk (g : List Char) : Bool :=
  (!g.isEmpty && g.all idChar) && (!(g.all Char.isDigit) || numericShape g)

/-- One build-metadata identifier, the regex piece `[0-9a-zA-Z-]+`:
nonempty over the identifier alphabet (leading zeros permitted). -/
def buildIdOk (g : List Char) : Bool :=
  !g.isEmpty && g.all idChar

/-- The pre-release capture: dotted identifiers, each matching `preIdOk`. -/
def preOk (p : List Char) : Bool := (splitDot p).all preIdOk

/-- The build-metadata capture: dotted identifiers, each matching
`buildIdOk`. -/
def buildOk (b : List Char) : Bool := (splitDot b).all buildIdOk

/-- The part of the input after the third numeric field: empty, or
`-` followed by the pre-release (and optionally `+` build), or `+` followed
by the build metadata.  The pre-release capture cannot contain `+`, so it
extends exactly to the first `+` of the remainder. -/
def parseTail : List Char → Option (Option (List Char) × Option (List Char))
  | [] => some (none, none)
  | c :: t =>
    if c = '-' then
      match t.dropWhile (fun x => !(x = '+')) with
      | [] =>
        if preOk (t.takeWhile (fun x => !(x = '+'))) then
          some (some (t.takeWhile (fun x => !(x = '+'))), none)
        else none
      | c2 :: b =>
        if c2 = '+' then
          if preOk (t.takeWhile (fun x => !(x = '+'))) && buildOk b then
            some (some (t.takeWhile (fun x => !(x = '+'))), some b)
          else none
        else none
    else if c = '+' then
      if buildOk t then some (none, some t) else none
    else none

/-- `FromStr::from_str` of the crate: match the anchored regex, then convert
the three numeric captures with `str::parse::<u128>()` (overflow is a parse
error), keeping the pre-release and build captures verbatim. -/
def from_str (s : List Char) : Option SemVer :=
  match s.dropWhile Char.isDigit with
  | c1 :: r1 =>
    if c1 = '.' then
      match r1.dropWhile Char.isDigit with
      | c2 :: r2 =>
        if c2 = '.' then
          if numericShape (s.takeWhile Char.isDigit)
              && numericShape (r1.takeWhile Char.isDigit)
              && numericShape (r2.takeWhile Char.isDigit)
              && parseNat (s.takeWhile Char.isDigit) < u128Bound
              && parseNat (r1.takeWhile Char.isDigit) < u128Bound
              && parseNat (r2.takeWhile Char.isDigit) < u128Bound then
            match parseTail (r2.dropWhile Char.isDigit) with
            | some (p, b) =>
              some ⟨parseNat (s.takeWhile Char.isDigit),
                    parseNat (r1.takeWhile Char.isDigit),
                    parseNat (r2.takeWhile Char.isDigit), p, b⟩
            | none => none
          else none
        else none
      | [] => none
    else none
  | [] => none

/-- Decimal rendering of an unsigned integer, as Rust's `Display` for `u128`
prints it: most significant digit first, no leading zeros, `0` for zero. -/
def natToDigits (n : Nat) : List Char :=
  if n < 10 then [Char.ofNat (48 + n)]
  else natToDigits (n / 10) ++ [Char.ofNat (48 + n % 10)]
termination_by n
decreasing_by exact Nat.div_lt_self (by omega) (by omega)

/-- `Display::fmt` of the crate: `major.minor.patch`, then `-pre_release`
when present, then `+build_meta` when present — the four-way match of the
source. -/
def display (v : SemVer) : List Char :=
  match v.pre_release, v.build_meta with
  | some p, some b =>
    natToDigits v.major ++ '.' :: natToDigits v.minor ++ '.' :: natToDigits v.patch
      ++ '-' :: p ++ '+' :: b
  | some p, none =>
    natToDigits v.major ++ '.' :: natToDigits v.minor ++ '.' :: natToDigits v.patch
      ++ '-' :: p
  | none, some b =>
    natToDigits v.major ++ '.' :: natToDigits v.minor ++ '.' :: natToDigits v.patch
      ++ '+' :: b
  | none, none =>
    natToDigits v.major ++ '.' :: natToDigits v.minor ++ '.' :: natToDigits v.patch

/-- Rust's `str::parse::<u128>()` as used inside the ordering function: an
optional leading plus sign, then one or more digits, value below `2^128`
(otherwise the parse errs). -/
def parseU128 (s : List Char) : Option Nat :=
  let digits := match s with
    | '+' :: t => t
    | t => t
  if !digits.isEmpty && digits.all Char.isDigit && parseNat digits < u128Bound then
    some (parseNat digits)
  else none

/-- Rust `&str` greater-than: lexicographic byte comparison (on the ASCII
strings at hand, `Char` order agrees with byte order). -/
def strGtR : List Char → List Char → Bool
  | [], _ => false
  | _ :: _, [] => true
  | a :: as_, b :: bs => if a = b then strGtR as_ bs else decide (b < a)

/-- The `for` loop inside `PartialOrd::ge`: walk the two identifier lists in
step; at the first differing index return the source's four-way match
(`some r`), and when either list runs out undecided return `none` (the
source then falls through to the length comparison). -/
def preLoop : List (List Char) → List (List Char) → Option Bool
  | o :: os, t :: ts =>
    if o = t then preLoop os ts
    else
      some (match parseU128 o, parseU128 t with
        | some a, some b => decide (a > b)
        | some _, none => false
        | none, some _ => true
        | none, none => strGtR o t)
  | _, _ => none

/-- `PartialOrd::ge` of the crate, verbatim: the "simple check" disjunction
first, then the pre-release walk when both sides carry a pre-release, the
length tie-break after an undecided walk, `true` when only the other side
has a pre-release, `false` otherwise. -/
def ge (a b : SemVer) : Bool :=
  if decide (a.major > b.major) || decide (a.minor > b.minor)
      || decide (a.patch > b.patch)
      || (a.pre_release.isNone && b.pre_release.isSome) then
    true
  else
    match a.pre_release, b.pre_release with
    | some op, some tp =>
      let ours := splitDot op
      let theirs := splitDot tp
      match preLoop ours theirs with
      | some r => r
      | none => decide (ours.length > theirs.length)
    | none, some _ => true
    | _, _ => false

/-- `PartialOrd::gt` of the crate, verbatim: `self == other && self.ge(other)`. -/
def gt (a b : SemVer) : Bool := decide (a = b) && ge a b

/-- `PartialOrd::le` of the crate, verbatim: `other.gt(self)`. -/
def le (a b : SemVer) : Bool := gt b a

/-- `PartialOrd::lt` of the crate, verbatim: `other.ge(self)`. -/
def lt (a b : SemVer) : Bool := ge b a

/-- `PartialOrd::partial_cmp` of the crate: `Equal` when structurally equal
(the derived `PartialEq`, all five fields), else `Less` when `self < other`
(i.e. `other.ge(self)`), else `Greater`.  The source always returns `Some`. -/
def partial_cmp (a b : SemVer) : Option Ordering :=
  if a = b then some .eq
  else if lt a b then some .lt
  else some .gt

/-- Three-way comparison on `Nat`, as `Ord::cmp` on `u128`. -/
def natCmp (a b : Nat) : Ordering :=
  if a < b then .lt else if a = b then .eq else .gt

/-- `Ord::cmp` on Rust `String`: lexicographic byte comparison. -/
def strCmp : List Char → List Char → Ordering
  | [], [] => .eq
  | [], _ :: _ => .lt
  | _ :: _, [] => .gt
  | a :: as_, b :: bs => (natCmp a.toNat b.toNat).then (strCmp as_ bs)

/-- `Ord::cmp` on `Option<String>` as derived in Rust: `None` is less than
`Some`, two `Some`s compare their contents. -/
def optionCmp (c : List Char → List Char → Ordering) :
    Option (List Char) → Option (List Char) → Ordering
  | none, none => .eq
  | none, some _ => .lt
  | some _, none => .gt
  | some a, some b => c a b

/-- The `#[derive(Ord)]` comparison on `SemVer`: field-wise lexicographic in
declaration order (major, minor, patch, pre_release, build_meta). -/
def derivedCmp (a b : SemVer) : Ordering :=
  (natCmp a.major b.major).then
    ((natCmp a.minor b.minor).then
      ((natCmp a.patch b.patch).then
        ((optionCmp strCmp a.pre_release b.pre_release).then
          (optionCmp strCmp a.build_meta b.build_meta))))

/-- The suffix of the input after the third numeric field, reassembled from
the two optional captures; inverse image of `parseTail`. -/
def tailChars : Option (List Char) → Option (List Char) → List Char
  | none, none => []
  | some p, none => '-' :: p
  | none, some b => '+' :: b
  | some p, some b => '-' :: p ++ '+' :: b

/-! ### Decimal digit strings and their numeric values -/

theorem toNat_bounds_of_isDigit {c : Char} (h : c.isDigit = true) :
    48 ≤ c.toNat ∧ c.toNat ≤ 57 := by
  simp [Char.isDigit] at h
  exact h

theorem char_eq_of_toNat_eq {c d : Char} (h : c.toNat = d.toNat) : c = d := by
  have hc := Char.ofNat_toNat c
  rw [h, Char.ofNat_toNat] at hc
  exact hc.symm

theorem parseNat_append (l : List Char) (c : Char) :
    parseNat (l ++ [c]) = parseNat l * 10 + (c.toNat - 48) := by
  simp [parseNat, List.foldl_append]

theorem parseNat_foldl_le (l : List Char) (a : Nat) :
    a ≤ l.foldl (fun x c => x * 10 + (c.toNat - 48)) a := by
  induction l generalizing a with
  | nil => exact Nat.le_refl a
  | cons c t ih =>
    have h1 : a ≤ a * 10 + (c.toNat - 48) := by
      have := Nat.le_mul_of_pos_right a (show 0 < 10 by omega)
      omega
    exact Nat.le_trans h1 (ih (a * 10 + (c.toNat - 48)))

theorem parseNat_head_pos {d : Char} (rest : List Char)
    (hd : d.isDigit = true) (hd0 : d ≠ '0') : 1 ≤ parseNat (d :: rest) := by
  have hb := toNat_bounds_of_isDigit hd
  have hne : d.toNat ≠ 48 := by
    intro h
    exact hd0 (char_eq_of_toNat_eq (by simpa using h))
  have h1 : 1 ≤ d.toNat - 48 := by omega
  have : parseNat (d :: rest)
      = rest.foldl (fun x c => x * 10 + (c.toNat - 48)) (0 * 10 + (d.toNat - 48)) := rfl
  rw [this]
  exact Nat.le_trans (by omega) (parseNat_foldl_le rest (0 * 10 + (d.toNat - 48)))

theorem natToDigits_digit {v : Nat} (h : v < 10) :
    natToDigits v = [Char.ofNat (48 + v)] := by
  rw [natToDigits, if_pos h]

theorem natToDigits_step {n : Nat} (h : 10 ≤ n) :
    natToDigits n = natToDigits (n / 10) ++ [Char.ofNat (48 + n % 10)] := by
  rw [natToDigits, if_neg (by omega)]

theorem ofNat_digit_eq {c : Char} (h : c.isDigit = true) :
    Char.ofNat (48 + (c.toNat - 48)) = c := by
  have hb := toNat_bounds_of_isDigit h
  have : 48 + (c.toNat - 48) = c.toNat := by omega
  rw [this, Char.ofNat_toNat]

/-- A nonempty all-digit string whose first digit is nonzero renders back
from its numeric value, most significant digit first. -/
theorem digits_round_aux (d : Char) (hd : d.isDigit = true) (hd0 : d ≠ '0') :
    ∀ rest : List Char, (∀ c ∈ rest, c.isDigit = true) →
      natToDigits (parseNat (d :: rest)) = d :: rest := by
  intro rest
  induction rest using List.reverseRecOn with
  | nil =>
    intro _
    have hb := toNat_bounds_of_isDigit hd
    have hv : parseNat [d] = d.toNat - 48 := by simp [parseNat]
    rw [hv, natToDigits_digit (by omega), ofNat_digit_eq hd]
  | append_singleton rest' c ih =>
    intro hrest
    have hc : c.isDigit = true := hrest c (by simp)
    have hrest' : ∀ x ∈ rest', x.isDigit = true := fun x hx => hrest x (by simp [hx])
    have hcb := toNat_bounds_of_isDigit hc
    have hP : 1 ≤ parseNat (d :: rest') := parseNat_head_pos rest' hd hd0
    have hsplit : parseNat (d :: (rest' ++ [c]))
        = parseNat (d :: rest') * 10 + (c.toNat - 48) := by
      have h : d :: (rest' ++ [c]) = (d :: rest') ++ [c] := by simp
      rw [h, parseNat_append]
    have hdiv : (parseNat (d :: rest') * 10 + (c.toNat - 48)) / 10
        = parseNat (d :: rest') := by omega
    have hmod : (parseNat (d :: rest') * 10 + (c.toNat - 48)) % 10
        = c.toNat - 48 := by omega
    have h10 : 10 ≤ parseNat (d :: rest') * 10 + (c.toNat - 48) := by omega
    rw [hsplit, natToDigits_step h10, hdiv, hmod, ih hrest', ofNat_digit_eq hc]
    simp

/-- Canonical decimal strings (the `numericShape` captures of the parser)
round-trip through their numeric value. -/
theorem digits_roundtrip (ds : List Char)
    (hdig : ∀ c ∈ ds, c.isDigit = true) (hshape : numericShape ds = true) :
    natToDigits (parseNat ds) = ds := by
  match ds with
  | [] => simp [numericShape] at hshape
  | d :: rest =>
    by_cases hd0 : d = '0'
    · have hrest : rest = [] := by
        simp [numericShape, hd0] at hshape
        simpa [List.isEmpty_iff] using hshape
      subst hrest hd0
      have h0 : parseNat ['0'] = 0 := by simp [parseNat]
      rw [h0, natToDigits_digit (by omega)]
    · exact digits_round_aux d (hdig d (by simp)) hd0 rest
        (fun c hc => hdig c (by simp [hc]))

/-! ### Inverting the parser -/

theorem parseTail_inv (rest : List Char) (p b : Option (List Char))
    (h : parseTail rest = some (p, b)) :
    rest = tailChars p b ∧ (∀ x, p = some x → preOk x = true) ∧
      ∀ x, b = some x → buildOk x = true := by
  match rest with
  | [] =>
    simp only [parseTail, Option.some_inj, Prod.mk.injEq] at h
    obtain ⟨hp, hb⟩ := h
    subst hp
    subst hb
    exact ⟨rfl, by simp, by simp⟩
  | c :: t =>
    simp only [parseTail] at h
    split at h
    · rename_i hc
      subst hc
      split at h
      · rename_i hdrop
        split at h
        · rename_i hpre
          simp only [Option.some_inj, Prod.mk.injEq] at h
          obtain ⟨hp, hb⟩ := h
          subst hp
          subst hb
          refine ⟨?_, ?_, by simp⟩
          · have ht : t = t.takeWhile (fun x => !(x = '+')) := by
              conv_lhs =>
                rw [← List.takeWhile_append_dropWhile (fun x => !(x = '+')) t]
              rw [hdrop, List.append_nil]
            simp only [tailChars]
            rw [← ht]
          · intro x hx
            rw [← Option.some_inj.mp hx]
            exact hpre
        · simp at h
      · rename_i c2 b' hdrop
        split at h
        · rename_i hc2
          subst hc2
          split at h
          · rename_i hok
            simp only [Option.some_inj, Prod.mk.injEq] at h
            obtain ⟨hp, hb⟩ := h
            subst hp
            subst hb
            refine ⟨?_, ?_, ?_⟩
            · have ht : t = t.takeWhile (fun x => !(x = '+')) ++ '+' :: b' := by
                conv_lhs =>
                  rw [← List.takeWhile_append_dropWhile (fun x => !(x = '+')) t]
                rw [hdrop]
              simp only [tailChars]
              conv_lhs => rw [ht]
              simp [List.cons_append]
            · intro x hx
              rw [← Option.some_inj.mp hx]
              exact (Bool.and_eq_true .. ▸ hok).1
            · intro x hx
              rw [← Option.some_inj.mp hx]
              exact (Bool.and_eq_true .. ▸ hok).2
          · simp at h
        · simp at h
    · split at h
      · rename_i hc hc2
        subst hc2
        split at h
        · rename_i hok
          simp only [Option.some_inj, Prod.mk.injEq] at h
          obtain ⟨hp, hb⟩ := h
          subst hp
          subst hb
          refine ⟨rfl, by simp, ?_⟩
          intro x hx
          rw [← Option.some_inj.mp hx]
          exact hok
        · simp at h
      · simp at h

/-- `Display::fmt`'s four arms, written as one concatenation with the tail
reassembled from the two optional fields. -/
theorem display_eq (v : SemVer) :
    display v = natToDigits v.major ++ '.' :: natToDigits v.minor
      ++ '.' :: natToDigits v.patch ++ tailChars v.pre_release v.build_meta := by
  obtain ⟨ma, mi, pa, pr, bm⟩ := v
  cases pr <;> cases bm <;> simp [display, tailChars, List.cons_append, List.append_assoc]

/-- Inversion of the parser: an accepted input decomposes into the three
canonical numeric captures, the separators and the optional tail, with every
side condition the regex imposes. -/
theorem from_str_inv (s : List Char) (v : SemVer) (h : from_str s = some v) :
    ∃ d1 d2 d3 : List Char,
      s = d1 ++ '.' :: d2 ++ '.' :: d3 ++ tailChars v.pre_release v.build_meta ∧
      (∀ c ∈ d1, c.isDigit = true) ∧ (∀ c ∈ d2, c.isDigit = true) ∧
      (∀ c ∈ d3, c.isDigit = true) ∧
      numericShape d1 = true ∧ numericShape d2 = true ∧ numericShape d3 = true ∧
      v.major = parseNat d1 ∧ v.minor = parseNat d2 ∧ v.patch = parseNat d3 ∧
      (∀ x, v.pre_release = some x → preOk x = true) ∧
      ∀ x, v.build_meta = some x → buildOk x = true := by
  simp only [from_str] at h
  split at h
  · rename_i c1 r1 hdrop1
    split at h
    · rename_i hc1
      subst hc1
      split at h
      · rename_i c2 r2 hdrop2
        split at h
        · rename_i hc2
          subst hc2
          split at h
          · rename_i hshapes
            split at h
            · rename_i p b hpt
              simp only [Option.some_inj] at h
              subst h
              simp only [Bool.and_eq_true, decide_eq_true_eq] at hshapes
              obtain ⟨⟨⟨⟨⟨h1, h2⟩, h3⟩, _⟩, _⟩, _⟩ := hshapes
              obtain ⟨hrest, hpre, hbuild⟩ := parseTail_inv _ p b hpt
              refine ⟨s.takeWhile Char.isDigit, r1.takeWhile Char.isDigit,
                r2.takeWhile Char.isDigit, ?_,
                fun c hc => List.mem_takeWhile_imp hc,
                fun c hc => List.mem_takeWhile_imp hc,
                fun c hc => List.mem_takeWhile_imp hc,
                h1, h2, h3, rfl, rfl, rfl, hpre, hbuild⟩
              have hs : s = s.takeWhile Char.isDigit ++ '.' :: r1 := by
                conv_lhs => rw [← List.takeWhile_append_dropWhile Char.isDigit s]
                rw [hdrop1]
              have hr1 : r1 = r1.takeWhile Char.isDigit ++ '.' :: r2 := by
                conv_lhs => rw [← List.takeWhile_append_dropWhile Char.isDigit r1]
                rw [hdrop2]
              have hr2 : r2 = r2.takeWhile Char.isDigit ++ tailChars p b := by
                conv_lhs => rw [← List.takeWhile_append_dropWhile Char.isDigit r2]
                rw [hrest]
              conv_lhs => rw [hs, hr1, hr2]
              simp [List.cons_append, List.append_assoc]
            · simp at h
          · simp at h
        · simp at h
      · simp at h
    · simp at h
  · simp at h

/-! ### The alphabet of accepted inputs -/

theorem splitDot_ne_nil (l : List Char) : splitDot l ≠ [] := by
  match l with
  | [] => simp [splitDot]
  | c :: rest =>
    simp only [splitDot]
    split
    · simp
    · split <;> simp

theorem splitDot_mem (l : List Char) (c : Char) (hc : c ∈ l) :
    c = '.' ∨ ∃ g ∈ splitDot l, c ∈ g := by
  induction l with
  | nil => simp at hc
  | cons c0 rest ih =>
    by_cases h0 : c0 = '.'
    · subst h0
      rcases List.mem_cons.mp hc with h | h
      · exact Or.inl h
      · rcases ih h with h1 | ⟨g, hg, hcg⟩
        · exact Or.inl h1
        · refine Or.inr ⟨g, ?_, hcg⟩
          simp only [splitDot, if_pos rfl]
          exact List.mem_cons_of_mem _ hg
    · match hsr : splitDot rest with
      | [] => exact absurd hsr (splitDot_ne_nil rest)
      | g :: gs =>
        have hsplit : splitDot (c0 :: rest) = (c0 :: g) :: gs := by
          simp only [splitDot, if_neg h0, hsr]
        rcases List.mem_cons.mp hc with h | h
        · subst h
          exact Or.inr ⟨c :: g, by rw [hsplit]; exact List.mem_cons_self .., by simp⟩
        · rcases ih h with h1 | ⟨g', hg', hcg'⟩
          · exact Or.inl h1
          · rw [hsr] at hg'
            rcases List.mem_cons.mp hg' with h2 | h2
            · subst h2
              exact Or.inr ⟨c0 :: g', by rw [hsplit]; exact List.mem_cons_self ..,
                List.mem_cons_of_mem _ hcg'⟩
            · exact Or.inr ⟨g', by rw [hsplit]; exact List.mem_cons_of_mem _ h2, hcg'⟩

theorem preOk_chars (p : List Char) (h : preOk p = true) :
    ∀ c ∈ p, idChar c = true ∨ c = '.' := by
  intro c hc
  rcases splitDot_mem p c hc with h1 | ⟨g, hg, hcg⟩
  · exact Or.inr h1
  · left
    have hid := List.all_eq_true.mp h g hg
    simp only [preIdOk, Bool.and_eq_true] at hid
    exact List.all_eq_true.mp hid.1.2 c hcg

theorem buildOk_chars (b : List Char) (h : buildOk b = true) :
    ∀ c ∈ b, idChar c = true ∨ c = '.' := by
  intro c hc
  rcases splitDot_mem b c hc with h1 | ⟨g, hg, hcg⟩
  · exact Or.inr h1
  · left
    have hid := List.all_eq_true.mp h g hg
    simp only [buildIdOk, Bool.and_eq_true] at hid
    exact List.all_eq_true.mp hid.2 c hcg

/-- The full character alphabet of the grammar: identifier characters
`[0-9A-Za-z-]` plus the dot and plus separators.  Everything outside — all
non-ASCII characters, whitespace, newlines, underscores — is excluded. -/
def allowedChar (c : Char) : Bool := idChar c || c = '.' || c = '+'

theorem allowed_of_digit {c : Char} (h : c.isDigit = true) :
    allowedChar c = true := by
  simp [allowedChar, idChar, Char.isAlphanum, h]

theorem allowed_of_id {c : Char} (h : idChar c = true ∨ c = '.') :
    allowedChar c = true := by
  rcases h with h | h
  · simp [allowedChar, h]
  · simp [allowedChar, h]

theorem tailChars_chars (p b : Option (List Char))
    (hp : ∀ x, p = some x → preOk x = true)
    (hb : ∀ x, b = some x → buildOk x = true) :
    ∀ c ∈ tailChars p b, allowedChar c = true := by
  intro c hc
  match p, b with
  | none, none => simp [tailChars] at hc
  | some pp, none =>
    simp only [tailChars, List.mem_cons] at hc
    rcases hc with h | h
    · subst h
      decide
    · exact allowed_of_id (preOk_chars pp (hp pp rfl) c h)
  | none, some bb =>
    simp only [tailChars, List.mem_cons] at hc
    rcases hc with h | h
    · subst h
      decide
    · exact allowed_of_id (buildOk_chars bb (hb bb rfl) c h)
  | some pp, some bb =>
    simp only [tailChars, List.cons_append, List.mem_cons, List.mem_append] at hc
    rcases hc with h | h | h | h
    · subst h
      decide
    · exact allowed_of_id (preOk_chars pp (hp pp rfl) c h)
    · subst h
      decide
    · exact allowed_of_id (buildOk_chars bb (hb bb rfl) c h)

/-! ### Claim theorems: parser and renderer -/

/-- C4: for every string `s` accepted by the parser, rendering the parsed
Version reproduces `s` byte for byte: `display (from_str s) = s`. -/
theorem c4_round_trip (s : List Char) (v : SemVer) (h : from_str s = some v) :
    display v = s := by
  obtain ⟨d1, d2, d3, hs, hm1, hm2, hm3, hn1, hn2, hn3, hv1, hv2, hv3, _, _⟩ :=
    from_str_inv s v h
  rw [display_eq, hv1, hv2, hv3, digits_roundtrip d1 hm1 hn1,
    digits_roundtrip d2 hm2 hn2, digits_roundtrip d3 hm3 hn3, ← hs]

/-- Witness for C4 at the concrete accepted string `1.1.2-prerelease+meta`. -/
theorem c4_round_trip_witness :
    display ⟨1, 1, 2, some "prerelease".data, some "meta".data⟩
      = "1.1.2-prerelease+meta".data :=
  c4_round_trip "1.1.2-prerelease+meta".data
    ⟨1, 1, 2, some "prerelease".data, some "meta".data⟩ (by decide)

/-- C9: every successfully parsed input consists solely of characters from
the grammar's alphabets — `[0-9A-Za-z-]`, the dot and the plus sign — so any
input containing whitespace, a newline or a non-ASCII character is
rejected. -/
theorem c9_alphabet (s : List Char) (v : SemVer) (h : from_str s = some v) :
    s.all allowedChar = true := by
  obtain ⟨d1, d2, d3, hs, hm1, hm2, hm3, _, _, _, _, _, _, hpre, hbuild⟩ :=
    from_str_inv s v h
  rw [List.all_eq_true]
  intro c hc
  rw [hs] at hc
  rcases List.mem_append.mp hc with h1 | h1
  swap
  · exact tailChars_chars _ _ hpre hbuild c h1
  rcases List.mem_append.mp h1 with h2 | h2
  swap
  · rcases List.mem_cons.mp h2 with h3 | h3
    · subst h3
      decide
    · exact allowed_of_digit (hm3 c h3)
  rcases List.mem_append.mp h2 with h3 | h3
  · exact allowed_of_digit (hm1 c h3)
  · rcases List.mem_cons.mp h3 with h4 | h4
    · subst h4
      decide
    · exact allowed_of_digit (hm2 c h4)

/-- Witness for C9 at the concrete accepted string `1.0.0-rc.1+build.1`. -/
theorem c9_alphabet_witness :
    ("1.0.0-rc.1+build.1".data.all allowedChar) = true :=
  c9_alphabet "1.0.0-rc.1+build.1".data
    ⟨1, 0, 0, some "rc.1".data, some "build.1".data⟩ (by decide)

/-- The valid set of spec §8: all must parse (they also all round-trip by
`c4_round_trip`). -/
def validStrings : List (List Char) :=
  ["0.0.4".data, "1.2.3".data, "10.20.30".data, "1.1.2-prerelease+meta".data,
   "1.1.2+meta".data, "1.1.2+meta-valid".data, "1.0.0-alpha".data,
   "1.0.0-beta".data, "1.0.0-alpha.beta".data, "1.0.0-alpha.beta.1".data,
   "1.0.0-alpha.1".data, "1.0.0-alpha0.valid".data, "1.0.0-alpha.0valid".data,
   "1.0.0-alpha-a.b-c-somethinglong+build.1-aef.1-its-okay".data,
   "1.0.0-rc.1+build.1".data, "2.0.0-rc.1+build.123".data, "1.2.3-beta".data,
   "10.2.3-DEV-SNAPSHOT".data, "1.2.3-SNAPSHOT-123".data, "1.0.0".data,
   "2.0.0".data, "1.1.7".data, "2.0.0+build.1848".data, "2.0.1-alpha.1227".data,
   "1.0.0-alpha+beta".data, "1.2.3----RC-SNAPSHOT.12.9.1--.12+788".data,
   "1.2.3----R-S.12.9.1--.12+meta".data, "1.2.3----RC-SNAPSHOT.12.9.1--.12".data,
   "1.0.0+0.build.1-rc.10000aaa-kk-0.1".data,
   "99999999999999999999999.999999999999999999.99999999999999999".data,
   "1.0.0-0A.is.legal".data]

/-- The invalid set of spec §8: all must be rejected. -/
def invalidStrings : List (List Char) :=
  ["1".data, "1.2".data, "1.2.3-0123".data, "1.2.3-0123.0123".data,
   "1.1.2+.123".data, "+invalid".data, "-invalid".data, "-invalid+invalid".data,
   "-invalid.01".data, "alpha".data, "alpha.beta".data, "alpha.beta.1".data,
   "alpha.1".data, "alpha+beta".data, "alpha_beta".data, "alpha.".data,
   "alpha..".data, "beta".data, "1.0.0-alpha_beta".data, "-alpha.".data,
   "1.0.0-alpha..".data, "1.0.0-alpha..1".data, "1.0.0-alpha...1".data,
   "01.1.1".data, "1.01.1".data, "1.1.01".data, "1.2.3.DEV".data,
   "1.2-SNAPSHOT".data, "1.2.31.2.3----RC-SNAPSHOT.12.09.1--..12+788".data,
   "1.2-RC-SNAPSHOT".data, "-1.0.3-gamma+b7718".data, "+justmeta".data,
   "9.8.7+meta+meta".data, "9.8.7-whatever+meta+meta".data]

/-- C5: the parser accepts every string of the §8 valid set (including the
23-digit version `99999999999999999999999.999999999999999999.99999999999999999`)
and returns a parse error for every string of the §8 invalid set. -/
theorem c5_accept_reject :
    (validStrings.all fun s => (from_str s).isSome) = true ∧
    (invalidStrings.all fun s => (from_str s).isNone) = true :=
  ⟨by decide, by decide⟩

/-! ### The ordering engine -/

theorem ge_true_of_nopre (a b : SemVer) (ha : a.pre_release = none)
    (hb : b.pre_release.isSome = true) : ge a b = true := by
  simp [ge, ha, hb]

theorem ge_false_of_pre_vs_nopre (a b : SemVer) (p : List Char)
    (hmaj : a.major = b.major) (hmin : a.minor = b.minor) (hpat : a.patch = b.patch)
    (ha : a.pre_release = none) (hb : b.pre_release = some p) :
    ge b a = false := by
  simp [ge, hmaj, hmin, hpat, ha, hb]

/-- When the numeric triple agrees and only `b` carries a pre-release, the
source's `partial_cmp` puts `a` above `b` in both orientations. -/
theorem pcmp_nopre (a b : SemVer) (p : List Char)
    (hmaj : a.major = b.major) (hmin : a.minor = b.minor) (hpat : a.patch = b.patch)
    (ha : a.pre_release = none) (hb : b.pre_release = some p) :
    partial_cmp a b = some .gt ∧ partial_cmp b a = some .lt := by
  have hne : a ≠ b := by
    intro hab
    rw [hab, hb] at ha
    simp at ha
  have hne' : b ≠ a := fun hh => hne hh.symm
  have hgef : ge b a = false := ge_false_of_pre_vs_nopre a b p hmaj hmin hpat ha hb
  have hget : ge a b = true := ge_true_of_nopre a b ha (by rw [hb]; rfl)
  constructor
  · rw [partial_cmp, if_neg hne, show lt a b = false from hgef]
    simp
  · rw [partial_cmp, if_neg hne', show lt b a = true from hget]
    simp

/-! ### Claim theorems: ordering -/

/-- C7: whenever the numeric triples agree and exactly one version carries
a pre-release, `partial_cmp` orders the version without a pre-release as
greater (in both argument orders). -/
theorem c7_no_pre_release_greater (a b : SemVer) (p : List Char)
    (hmaj : a.major = b.major) (hmin : a.minor = b.minor) (hpat : a.patch = b.patch)
    (ha : a.pre_release = none) (hb : b.pre_release = some p) :
    partial_cmp a b = some .gt ∧ partial_cmp b a = some .lt :=
  pcmp_nopre a b p hmaj hmin hpat ha hb

/-- Witness for C7 at `1.0.0` versus `1.0.0-alpha`. -/
theorem c7_no_pre_release_greater_witness :
    partial_cmp ⟨1, 0, 0, none, none⟩ ⟨1, 0, 0, some "alpha".data, none⟩ = some .gt ∧
    partial_cmp ⟨1, 0, 0, some "alpha".data, none⟩ ⟨1, 0, 0, none, none⟩ = some .lt :=
  c7_no_pre_release_greater ⟨1, 0, 0, none, none⟩ ⟨1, 0, 0, some "alpha".data, none⟩
    "alpha".data rfl rfl rfl rfl rfl

/-- C10: with equal numeric triples and exactly one pre-release, the derived
`Ord::cmp` (field-wise, `None` before `Some`) orders the version WITHOUT a
pre-release as less — the reverse of the precedence order that
`partial_cmp` returns for the same pair. -/
theorem c10_derived_cmp_reversed (a b : SemVer) (p : List Char)
    (hmaj : a.major = b.major) (hmin : a.minor = b.minor) (hpat : a.patch = b.patch)
    (ha : a.pre_release = none) (hb : b.pre_release = some p) :
    derivedCmp a b = .lt ∧ partial_cmp a b = some .gt := by
  constructor
  · have hself : ∀ n : Nat, natCmp n n = .eq := fun n => by simp [natCmp]
    simp only [derivedCmp, hmaj, hmin, hpat, ha, hb, hself]
    rfl
  · exact (pcmp_nopre a b p hmaj hmin hpat ha hb).1

/-- Witness for C10 at `2.0.0` versus `2.0.0-rc.1`. -/
theorem c10_derived_cmp_reversed_witness :
    derivedCmp ⟨2, 0, 0, none, none⟩ ⟨2, 0, 0, some "rc.1".data, none⟩ = .lt ∧
    partial_cmp ⟨2, 0, 0, none, none⟩ ⟨2, 0, 0, some "rc.1".data, none⟩ = some .gt :=
  c10_derived_cmp_reversed ⟨2, 0, 0, none, none⟩ ⟨2, 0, 0, some "rc.1".data, none⟩
    "rc.1".data rfl rfl rfl rfl rfl

theorem preLoop_self (l : List (List Char)) : preLoop l l = none := by
  induction l with
  | nil => rfl
  | cons g gs ih => simp [preLoop, ih]

/-- The source's `ge` is irreflexive: on two structurally equal versions
every branch returns `false`. -/
theorem ge_self_false (a : SemVer) : ge a a = false := by
  rw [ge, if_neg]
  · match h : a.pre_release with
    | none => simp
    | some p => simp [preLoop_self]
  · simp

/-- C8 (refutation): the crate's `le` — defined as `other.gt(self)` with
`gt` defined as `self == other && self.ge(other)` — is false on EVERY pair
of equal versions, so `a ≤ a` never holds and `≤` is not reflexive. -/
theorem c8_code_eval : ∀ a : SemVer, le a a = false := by
  intro a
  rw [le, gt, ge_self_false]
  simp

/-- C1 (refutation): the ordering does not compare the numeric triple
lexicographically — `2.0.0` is reported LESS than `1.5.0` because the
source treats any one of major/minor/patch being greater as sufficient for
`ge`, and here `1.5.0`'s minor wins over the smaller major. -/
theorem c1_code_eval :
    from_str "2.0.0".data = some ⟨2, 0, 0, none, none⟩ ∧
    from_str "1.5.0".data = some ⟨1, 5, 0, none, none⟩ ∧
    partial_cmp ⟨2, 0, 0, none, none⟩ ⟨1, 5, 0, none, none⟩ = some .lt :=
  ⟨by decide, by decide, by decide⟩

/-- C2 (refutation): build metadata DOES affect the ordering — two versions
equal except for build metadata compare as `gt`, not `eq`, because
`partial_cmp` tests the derived structural equality, which includes
`build_meta`. -/
theorem c2_code_eval :
    from_str "1.0.0+x".data = some ⟨1, 0, 0, none, some "x".data⟩ ∧
    from_str "1.0.0+y".data = some ⟨1, 0, 0, none, some "y".data⟩ ∧
    partial_cmp ⟨1, 0, 0, none, some "x".data⟩ ⟨1, 0, 0, none, some "y".data⟩
      = some .gt ∧
    partial_cmp ⟨1, 0, 0, none, some "y".data⟩ ⟨1, 0, 0, none, some "x".data⟩
      = some .gt :=
  ⟨by decide, by decide, by decide, by decide⟩

/-- C3 (refutation): `partial_cmp` is not antisymmetric — on the accepted
strings `1.5.0` and `2.0.0` it returns `lt` in BOTH argument orders, so
`compare(a,b)` is not the inverse of `compare(b,a)`. -/
theorem c3_code_eval :
    from_str "1.5.0".data = some ⟨1, 5, 0, none, none⟩ ∧
    from_str "2.0.0".data = some ⟨2, 0, 0, none, none⟩ ∧
    partial_cmp ⟨1, 5, 0, none, none⟩ ⟨2, 0, 0, none, none⟩ = some .lt ∧
    partial_cmp ⟨2, 0, 0, none, none⟩ ⟨1, 5, 0, none, none⟩ = some .lt :=
  ⟨by decide, by decide, by decide, by decide⟩

/-- C6 (refutation): two pre-release identifiers that consist only of
digits but exceed `u128::MAX` are NOT compared numerically — the
`parse::<u128>()` calls fail, the source falls back to byte-wise string
comparison, and the numerically larger `10^39` is reported LESS than
`10^39 - 1`. -/
theorem c6_code_eval :
    from_str "1.0.0-1000000000000000000000000000000000000000".data
      = some ⟨1, 0, 0, some "1000000000000000000000000000000000000000".data, none⟩ ∧
    from_str "1.0.0-999999999999999999999999999999999999999".data
      = some ⟨1, 0, 0, some "999999999999999999999999999999999999999".data, none⟩ ∧
    parseNat "1000000000000000000000000000000000000000".data
      > parseNat "999999999999999999999999999999999999999".data ∧
    partial_cmp
      ⟨1, 0, 0, some "1000000000000000000000000000000000000000".data, none⟩
      ⟨1, 0, 0, some "999999999999999999999999999999999999999".data, none⟩
      = some .lt :=
  ⟨by decide, by decide, by decide, by decide⟩

end YadSemver

